import Mathlib

/-!
# Verification of the P2P peer runtime (REST + RPC file-sharing peer)

Shallow embedding of the peer state module (`peer/state.py`), file indexer
(`peer/indexer.py`), the federated-search and `/files` handlers (`peer/app.py`)
and the streaming download servicer (`peer/grpc_server.py`).

Modelling conventions:
* epoch timestamps are `Nat` seconds; the Python float comparisons
  `now - t < 60` translate to the same comparison on `Nat` (for the filter
  predicates used by the code, truncated subtraction agrees with the integer
  comparison: `now - t < c ↔ now < t + c` whenever `c > 0`);
* Python `dict` (insertion-ordered) is an association list updated in place;
* Python `set` is a duplicate-free list: `add` appends if missing,
  `discard` filters out;
* the persistent JSON snapshot on disk is mirrored by a `disk` field:
  `none` models a missing `peer_state.json` file.
-/

set_option autoImplicit false

namespace P2P

/-- Insertion-ordered dictionary update (`d[k] = v` on a Python dict):
if the key is present its value is replaced in place, otherwise the pair
is appended at the end. -/
def dictSet {α : Type} (k : String) (v : α) : List (String × α) → List (String × α)
  | [] => [(k, v)]
  | (k', v') :: rest => if k' = k then (k, v) :: rest else (k', v') :: dictSet k v rest

/-- Dictionary lookup (`d.get(k)`): first binding of the key, if any. -/
def dictGet {α : Type} (k : String) : List (String × α) → Option α
  | [] => none
  | (k', v') :: rest => if k' = k then some v' else dictGet k rest

/-- Python `set.add`: append the element if it is not already a member. -/
def setAdd (x : String) (s : List String) : List String :=
  if x ∈ s then s else s ++ [x]

/-- Python `set.discard`: drop every occurrence of the element. -/
def setDiscard (x : String) (s : List String) : List String :=
  s.filter (fun y => y ≠ x)

/-- `FileMeta` as produced by `indexer.list_files`: `name`, `size`, `mtime`.
(The indexer produces no checksum field.) -/
structure FileMeta where
  name : String
  size : Nat
  mtime : Nat
deriving DecidableEq, Repr

/-- Contents of the persistent JSON snapshot `peer_state.json`
(`known_peers`, `file_cache`, `cache_timestamps`). -/
structure Snapshot where
  known_peers : List (String × Nat)
  file_cache : List (String × List FileMeta)
  cache_timestamps : List (String × Nat)
deriving DecidableEq, Repr

/-- The mutable fields of `PeerState` (`peer/state.py`), plus a mirror of the
on-disk snapshot file (`none` = file absent). -/
structure PeerState where
  self_url : String
  known_peers : List (String × Nat)
  healthy_peers : List String
  failed_peers : List String
  request_counts : List (String × List Nat)
  download_counts : List (String × List Nat)
  file_cache : List (String × List FileMeta)
  cache_timestamps : List (String × Nat)
  search_history : List (String × Nat)
  disk : Option Snapshot
deriving DecidableEq, Repr

/-- A fresh `PeerState(self_url)` constructed with no pre-existing snapshot
file: every container empty. -/
def mkFresh (self_url : String) : PeerState :=
  { self_url := self_url
    known_peers := []
    healthy_peers := []
    failed_peers := []
    request_counts := []
    download_counts := []
    file_cache := []
    cache_timestamps := []
    search_history := []
    disk := none }

/-- The snapshot triple a state would write to disk. -/
def PeerState.snapshotOf (s : PeerState) : Snapshot :=
  ⟨s.known_peers, s.file_cache, s.cache_timestamps⟩

/-- `PeerState._save_persistent_state`: rewrite the snapshot file with the
current `known_peers`, `file_cache` and `cache_timestamps`. -/
def save (s : PeerState) : PeerState :=
  { s with disk := some s.snapshotOf }

/-- `PeerState.register_peer(url)`: set `known_peers[url] = now`, add the url
to the healthy set, discard it from the failed set, persist. -/
def register_peer (now : Nat) (url : String) (s : PeerState) : PeerState :=
  save { s with
    known_peers := dictSet url now s.known_peers
    healthy_peers := setAdd url s.healthy_peers
    failed_peers := setDiscard url s.failed_peers }

/-- `PeerState.mark_peer_failed(url)`: add to failed, discard from healthy
(no persistence). -/
def mark_peer_failed (url : String) (s : PeerState) : PeerState :=
  { s with
    failed_peers := setAdd url s.failed_peers
    healthy_peers := setDiscard url s.healthy_peers }

/-- `PeerState.mark_peer_healthy(url)`: add to healthy, discard from failed,
refresh `last_seen` only if the url is already known (no persistence). -/
def mark_peer_healthy (now : Nat) (url : String) (s : PeerState) : PeerState :=
  { s with
    healthy_peers := setAdd url s.healthy_peers
    failed_peers := setDiscard url s.failed_peers
    known_peers :=
      if (dictGet url s.known_peers).isSome then dictSet url now s.known_peers
      else s.known_peers }

/-- `PeerState.list_peers()`: keys of `known_peers` with the self url
inserted at the front when not already present. -/
def list_peers (s : PeerState) : List String :=
  let peers := s.known_peers.map Prod.fst
  if s.self_url ∈ peers then peers else s.self_url :: peers

/-- `PeerState.list_healthy_peers()`: the peers of `list_peers` that are in
the healthy set, with the self url always passing the filter. -/
def list_healthy_peers (s : PeerState) : List String :=
  (list_peers s).filter (fun p => decide (p ∈ s.healthy_peers) || decide (p = s.self_url))

/-- The rate-limit pruning step: keep only timestamps with `now - t < 60`. -/
def pruneBucket (now : Nat) (b : List Nat) : List Nat :=
  b.filter (fun t => decide (now - t < 60))

/-- The bucket `check_rate_limit` operates on: `request_counts[url]` when
`limit_type == "requests"`, else `download_counts[url]`; missing key = `[]`. -/
def bucketOf (limit_type url : String) (s : PeerState) : List Nat :=
  if limit_type = "requests" then (dictGet url s.request_counts).getD []
  else (dictGet url s.download_counts).getD []

/-- `PeerState.check_rate_limit(peer_url, limit_type, limit_per_minute)`:
prune the bucket to the last 60 seconds, deny if the remaining count has
reached the limit, otherwise append `now` and allow.  Returns the Python
return value and the updated state (the pruned — and possibly extended —
bucket is stored back under the key in either branch). -/
def check_rate_limit (now : Nat) (peer_url limit_type : String) (limit : Nat)
    (s : PeerState) : Bool × PeerState :=
  let pruned := pruneBucket now (bucketOf limit_type peer_url s)
  if limit ≤ pruned.length then
    (false,
      if limit_type = "requests" then
        { s with request_counts := dictSet peer_url pruned s.request_counts }
      else
        { s with download_counts := dictSet peer_url pruned s.download_counts })
  else
    (true,
      if limit_type = "requests" then
        { s with request_counts := dictSet peer_url (pruned ++ [now]) s.request_counts }
      else
        { s with download_counts := dictSet peer_url (pruned ++ [now]) s.download_counts })

/-- `PeerState.get_cached_files(peer_url, max_age)`: the cached list if
present and its timestamp is at most `max_age` old, else `none`. -/
def get_cached_files (now : Nat) (peer_url : String) (max_age : Nat)
    (s : PeerState) : Option (List FileMeta) :=
  match dictGet peer_url s.file_cache with
  | none => none
  | some files =>
    let cache_time := (dictGet peer_url s.cache_timestamps).getD 0
    if now - cache_time > max_age then none else some files

/-- `PeerState.cache_files(peer_url, files)`: store the list and `now`,
persist. -/
def cache_files (now : Nat) (peer_url : String) (files : List FileMeta)
    (s : PeerState) : PeerState :=
  save { s with
    file_cache := dictSet peer_url files s.file_cache
    cache_timestamps := dictSet peer_url now s.cache_timestamps }

/-- `PeerState.should_search_again(query_hash, min_interval)`: if less than
`min_interval` elapsed since the recorded time (default `0`) return `false`
without touching the ledger; otherwise record `now` and return `true`. -/
def should_search_again (now : Nat) (query_hash : String) (min_interval : Nat)
    (s : PeerState) : Bool × PeerState :=
  let last := (dictGet query_hash s.search_history).getD 0
  if now - last < min_interval then (false, s)
  else (true, { s with search_history := dictSet query_hash now s.search_history })

/-- Rate-bucket cleanup inside `prune`: prune every bucket to the last 60
seconds and delete keys whose bucket became empty. -/
def pruneCounts (now : Nat) (d : List (String × List Nat)) : List (String × List Nat) :=
  (d.map (fun p => (p.1, pruneBucket now p.2))).filter (fun p => !p.2.isEmpty)

/-- `PeerState.prune(ttl_seconds)`: drop peers with `now - last_seen > ttl`
together with their health flags and cache entries, clean both rate-count
maps, drop query-ledger entries older than 3600 s, persist. -/
def prune (now ttl : Nat) (s : PeerState) : PeerState :=
  let toDel := (s.known_peers.filter (fun p => decide (now - p.2 > ttl))).map Prod.fst
  save { s with
    known_peers := s.known_peers.filter (fun p => !decide (now - p.2 > ttl))
    healthy_peers := s.healthy_peers.filter (fun u => !decide (u ∈ toDel))
    failed_peers := s.failed_peers.filter (fun u => !decide (u ∈ toDel))
    file_cache := s.file_cache.filter (fun p => !decide (p.1 ∈ toDel))
    cache_timestamps := s.cache_timestamps.filter (fun p => !decide (p.1 ∈ toDel))
    request_counts := pruneCounts now s.request_counts
    download_counts := pruneCounts now s.download_counts
    search_history := s.search_history.filter (fun p => decide (now - p.2 < 3600)) }

/-! ## Transition system over the peer state (for the invariant claims) -/

/-- One state-mutating call, with the wall-clock time of the call where the
operation reads `time.time()`. -/
inductive POp where
  | reg (now : Nat) (url : String)
  | mh (now : Nat) (url : String)
  | mf (url : String)
  | pr (now : Nat) (ttl : Nat)
deriving DecidableEq, Repr

/-- Apply one operation to a state. -/
def applyOp (s : PeerState) : POp → PeerState
  | .reg now url => register_peer now url s
  | .mh now url => mark_peer_healthy now url s
  | .mf url => mark_peer_failed url s
  | .pr now ttl => prune now ttl s

/-- Run a finite sequence of operations from a state. -/
def runOps (s : PeerState) (ops : List POp) : PeerState :=
  ops.foldl applyOp s

/-! ## File indexer (`peer/indexer.py`) and the `/files` endpoint -/

/-- One entry yielded by `Path.iterdir()`, in the order the directory
iteration produces them. -/
structure DirEntry where
  name : String
  isFile : Bool
  size : Nat
  mtime : Nat
deriving DecidableEq, Repr

/-- `indexer.list_files(shared_dir)`: empty when the directory does not
exist; otherwise one `FileMeta` per regular file, in directory-iteration
order (no sorting, no checksum computation). -/
def list_files (dirExists : Bool) (entries : List DirEntry) : List FileMeta :=
  if dirExists then
    (entries.filter (·.isFile)).map (fun e => ⟨e.name, e.size, e.mtime⟩)
  else []

/-- One element of the `files` array returned by `GET /files`. -/
structure RestFile where
  name : String
  size : Nat
  mtime : Nat
  rest_url : String
  grpc : String
  checksum : String
deriving DecidableEq, Repr

/-- The `files` array built by the `/files` handler: each indexed file plus
`rest_url`, `grpc` and `checksum = f.get("checksum", "")`, which is always
the empty string because the indexer supplies no checksum key. -/
def filesEndpoint (self_url ip : String) (grpc_port : Nat)
    (file_list : List FileMeta) : List RestFile :=
  file_list.map (fun f =>
    { name := f.name
      size := f.size
      mtime := f.mtime
      rest_url := self_url ++ "/files/" ++ f.name
      grpc := "grpc://" ++ ip ++ ":" ++ toString grpc_port
      checksum := "" })

/-! ## Federated search (`GET /search` in `peer/app.py`, federation path) -/

/-- Case-insensitive substring match `query.lower() in name.lower()`
(lower-casing applied per character). -/
def nameMatches (query : String) (f : FileMeta) : Bool :=
  decide (List.IsInfix (query.data.map Char.toLower) (f.name.data.map Char.toLower))

/-- One element of the `results` array of a search response.  `cached` mirrors
the presence of the `"cached": True` key. -/
structure SearchEntry where
  peer : String
  files : List FileMeta
  cached : Bool
deriving DecidableEq, Repr

/-- Outcome of the `GET {peer}/files` RPC issued for one neighbour:
an exception / `None` response, a non-200 response, or a 200 response whose
JSON body may carry `base` and `files` keys. -/
inductive RpcResult where
  | err
  | bad
  | ok (base : Option String) (files : Option (List FileMeta))
deriving DecidableEq, Repr

/-- The healthy neighbour list the search handler federates over:
`[p for p in STATE.list_healthy_peers() if p != CFG.self_url]`. -/
def healthyNonSelf (s : PeerState) : List String :=
  (list_healthy_peers s).filter (fun p => decide (p ≠ s.self_url))

/-- The neighbours selected for federation:
`healthy_peers[:min(fanout, CFG.max_fanout, len(healthy_peers))]`. -/
def selectedPeers (fanout max_fanout : Nat) (s : PeerState) : List String :=
  let hp := healthyNonSelf s
  hp.take (min fanout (min max_fanout hp.length))

/-- Python truthiness of the cached lookup, as tested by
`if cached_files:` — true only for a present AND non-empty cached list. -/
def cacheHit (cache : String → Option (List FileMeta)) (p : String) : Bool :=
  !((cache p).getD []).isEmpty

/-- The first loop over the selected peers: truthy cache hits (present,
non-empty list) are appended to the results immediately (in selection
order); all other peers — no cache entry or an empty cached list — are
queued as RPC tasks (in selection order).  Returns (appended cache-hit
entries, queued peers). -/
def collectPhase (query : String) (cache : String → Option (List FileMeta)) :
    List String → List SearchEntry × List String
  | [] => ([], [])
  | p :: rest =>
    let (es, ts) := collectPhase query cache rest
    match cache p with
    | some cf =>
      if cf.isEmpty then (es, p :: ts)
      else (⟨p, cf.filter (nameMatches query), true⟩ :: es, ts)
    | none => (es, p :: ts)

/-- Processing of the gathered RPC responses, in task order: exceptions and
non-200 responses contribute nothing; a 200 response contributes an entry
whose `peer` is `data.get("base", peer)` and whose files are
`data.get("files", [])` filtered by the query. -/
def rpcPhase (query : String) (rpc : String → RpcResult)
    (tasks : List String) : List SearchEntry :=
  tasks.filterMap (fun p =>
    match rpc p with
    | .ok base files => some ⟨base.getD p, (files.getD []).filter (nameMatches query), false⟩
    | _ => none)

/-- The body of a search response. -/
structure SearchResponse where
  query : String
  ttl : Nat
  fanout_used : Nat
  results : List SearchEntry
deriving DecidableEq, Repr

/-- The federation path of the `/search` handler (the path taken when the
query-dedup gate admits the search): local results first, then — when
`ttl > 0` — the cache-hit entries of the selected neighbours followed by the
entries recovered from the parallel `/files` RPCs.
`fanout_used = min(fanout, CFG.max_fanout)` in the response. -/
def searchFederated (s : PeerState) (query : String) (fanout max_fanout ttl : Nat)
    (localFiles : List FileMeta) (cache : String → Option (List FileMeta))
    (rpc : String → RpcResult) : SearchResponse :=
  let localEntry : SearchEntry := ⟨s.self_url, localFiles.filter (nameMatches query), false⟩
  if 0 < ttl then
    let selected := selectedPeers fanout max_fanout s
    let (cachedEs, tasks) := collectPhase query cache selected
    ⟨query, ttl, min fanout max_fanout,
      localEntry :: (cachedEs ++ rpcPhase query rpc tasks)⟩
  else
    ⟨query, ttl, min fanout max_fanout, [localEntry]⟩

/-! ## Streaming download (`FileTransferServicer.DummyDownload`) -/

/-- `CHUNK_SIZE = 64 * 1024`. -/
def CHUNK_SIZE : Nat := 64 * 1024

/-- One streamed `FileChunk{data, seq}`; bytes are modelled as `Nat`s. -/
structure FileChunk where
  data : List Nat
  seq : Nat
deriving DecidableEq, Repr

/-- The read loop `f.read(CHUNK_SIZE)` until empty, with explicit fuel
(structurally recursive; `fuel ≥ content.length` makes it total on the
content). -/
def chunksAux : Nat → List Nat → List (List Nat)
  | 0, _ => []
  | fuel + 1, content =>
    if content = [] then []
    else content.take CHUNK_SIZE :: chunksAux fuel (content.drop CHUNK_SIZE)

/-- The successive `f.read(CHUNK_SIZE)` results for the content of a file. -/
def fileChunks (content : List Nat) : List (List Nat) :=
  chunksAux content.length content

/-- UTF-8 bytes of the not-found / error message. -/
def errBytes (msg : String) : List Nat :=
  msg.toUTF8.toList.map (fun b => b.toNat)

/-- The chunk stream produced for an existing regular file: the read-loop
chunks paired with `seq` counting up from 1. -/
def downloadChunks (content : List Nat) : List FileChunk :=
  (fileChunks content).enum.map (fun p => ⟨p.2, p.1 + 1⟩)

/-- `DummyDownload`: `none` when the download rate-limit denies (stream
aborted); a single error chunk with `seq = 1` when the path is not an
existing regular file; otherwise the file streamed in `CHUNK_SIZE` chunks
with `seq` counting up from 1. -/
def dummyDownload (allowed : Bool) (fileOk : Bool) (content : List Nat)
    (filename peerName : String) : Option (List FileChunk) :=
  if !allowed then none
  else if !fileOk then
    some [⟨errBytes ("File " ++ filename ++ " not found on " ++ peerName), 1⟩]
  else
    some (downloadChunks content)

/-! ## Rate-limit and query-ledger traces -/

/-- The bucket-level step of `check_rate_limit`. -/
def rateStep (limit : Nat) (bucket : List Nat) (now : Nat) : Bool × List Nat :=
  let pruned := pruneBucket now bucket
  if limit ≤ pruned.length then (false, pruned) else (true, pruned ++ [now])

/-- A sequence of `check_rate_limit` decisions on one bucket, one per call
time, logging `(time, decision)`. -/
def runRate (limit : Nat) (bucket : List Nat) : List Nat → List (Nat × Bool) × List Nat
  | [] => ([], bucket)
  | t :: ts =>
    let r := rateStep limit bucket t
    let rest := runRate limit r.2 ts
    ((t, r.1) :: rest.1, rest.2)

/-- A sequence of `check_rate_limit` calls against the full peer state, for
one client and one bucket kind. -/
def runChecks (url kind : String) (limit : Nat) (s : PeerState) :
    List Nat → List (Nat × Bool) × PeerState
  | [] => ([], s)
  | t :: ts =>
    let r := check_rate_limit t url kind limit s
    let rest := runChecks url kind limit r.2 ts
    ((t, r.1) :: rest.1, rest.2)

/-- Times of the positive decisions in a call log. -/
def allowTimes (log : List (Nat × Bool)) : List Nat :=
  (log.filter (fun e => e.2)).map Prod.fst

/-- The value-level step of `should_search_again` for one query hash:
`last` is the recorded time (0 when the hash is unseen). -/
def searchStep (min_interval : Nat) (last now : Nat) : Bool × Nat :=
  if now - last < min_interval then (false, last) else (true, now)

/-- A sequence of `should_search_again` decisions for one query hash. -/
def runSearchGate (min_interval : Nat) (last : Nat) : List Nat → List (Nat × Bool) × Nat
  | [] => ([], last)
  | t :: ts =>
    let r := searchStep min_interval last t
    let rest := runSearchGate min_interval r.2 ts
    ((t, r.1) :: rest.1, rest.2)

/-- A sequence of `should_search_again` calls against the full peer state. -/
def runGateState (query_hash : String) (min_interval : Nat) (s : PeerState) :
    List Nat → List (Nat × Bool) × PeerState
  | [] => ([], s)
  | t :: ts =>
    let r := should_search_again t query_hash min_interval s
    let rest := runGateState query_hash min_interval r.2 ts
    ((t, r.1) :: rest.1, rest.2)

/-- Number of elements of `l` in the half-open window `[T, T + w)`. -/
def countWindow (w T : Nat) (l : List Nat) : Nat :=
  (l.filter (fun t => decide (T ≤ t) && decide (t < T + w))).length

/-- Whether an RPC outcome is a 200 response. -/
def RpcResult.isOk : RpcResult → Bool
  | .ok _ _ => true
  | _ => false

/-- A small concrete state with two known healthy neighbours, used to
exercise the federated-search model on explicit inputs. -/
def twoPeerState : PeerState :=
  { mkFresh "s" with known_peers := [("a", 1), ("b", 1)], healthy_peers := ["a", "b"] }

/-- A cache with a truthy (non-empty) hit for neighbour `b` only. -/
def cacheHitB : String → Option (List FileMeta) :=
  fun p => if p = "b" then some [⟨"beta.txt", 3, 2⟩] else none

/-- RPC outcomes in which every contacted neighbour answers 200 with an
empty file list and no `base` key. -/
def rpcAllOk : String → RpcResult :=
  fun _ => .ok none (some [])

/-- Lexicographic less-or-equal on character lists (by code point), the
order the spec claims for the index listing. -/
def lexLeChars : List Char → List Char → Bool
  | [], _ => true
  | _ :: _, [] => false
  | a :: as, b :: bs =>
    if a.toNat < b.toNat then true
    else if b.toNat < a.toNat then false
    else lexLeChars as bs

/-! ## Basic lemmas on the dictionary and set embeddings -/

@[simp]
theorem dictGet_dictSet_self {α : Type} (k : String) (v : α) (d : List (String × α)) :
    dictGet k (dictSet k v d) = some v := by
  induction d with
  | nil => simp [dictSet, dictGet]
  | cons hd tl ih =>
    obtain ⟨k', v'⟩ := hd
    by_cases h : k' = k
    · simp [dictSet, dictGet, h]
    · simp [dictSet, dictGet, h, ih]

@[simp]
theorem mem_setAdd {x y : String} {s : List String} :
    y ∈ setAdd x s ↔ y ∈ s ∨ y = x := by
  unfold setAdd
  by_cases h : x ∈ s
  · simp only [if_pos h]
    constructor
    · exact Or.inl
    · rintro (hy | rfl) <;> assumption
  · simp [if_neg h]

@[simp]
theorem mem_setDiscard {x y : String} {s : List String} :
    y ∈ setDiscard x s ↔ y ∈ s ∧ y ≠ x := by
  simp [setDiscard]

/-- The self url is always an element of `list_peers`. -/
theorem self_mem_list_peers (s : PeerState) : s.self_url ∈ list_peers s := by
  unfold list_peers
  by_cases h : s.self_url ∈ s.known_peers.map Prod.fst <;> simp [h]

/-- The self url is always an element of `list_healthy_peers`, whatever the
healthy set contains. -/
theorem self_mem_list_healthy_peers (s : PeerState) :
    s.self_url ∈ list_healthy_peers s := by
  unfold list_healthy_peers
  rw [List.mem_filter]
  exact ⟨self_mem_list_peers s, by simp⟩

/-! ## C1: what `register_peer` actually does -/

/-- Amended C1: for every url (previously known or not), `register_peer`
sets `last_seen = now`, places the url in the healthy set, removes it from
the failed set, and rewrites the persistent snapshot. -/
theorem register_peer_spec (s : PeerState) (now : Nat) (url : String) :
    dictGet url (register_peer now url s).known_peers = some now
    ∧ url ∈ (register_peer now url s).healthy_peers
    ∧ url ∉ (register_peer now url s).failed_peers
    ∧ (register_peer now url s).disk = some (register_peer now url s).snapshotOf := by
  refine ⟨?_, ?_, ?_, rfl⟩
  · simp [register_peer, save]
  · simp [register_peer, save]
  · simp [register_peer, save]

/-- C1 counterexample: registering a previously unknown url puts it in the
healthy set, not in the failed set as the claim asserts. -/
theorem register_peer_counterexample :
    "u" ∈ (register_peer 5 "u" (mkFresh "s")).healthy_peers
    ∧ "u" ∉ (register_peer 5 "u" (mkFresh "s")).failed_peers
    ∧ dictGet "u" (mkFresh "s").known_peers = none := by
  decide

/-- Witness for `register_peer_spec` at a concrete input. -/
theorem register_peer_spec_witness :
    dictGet "u" (register_peer 7 "u" (mkFresh "s")).known_peers = some 7
    ∧ "u" ∈ (register_peer 7 "u" (mkFresh "s")).healthy_peers
    ∧ "u" ∉ (register_peer 7 "u" (mkFresh "s")).failed_peers
    ∧ (register_peer 7 "u" (mkFresh "s")).disk =
        some (register_peer 7 "u" (mkFresh "s")).snapshotOf :=
  register_peer_spec (mkFresh "s") 7 "u"

/-! ## C3: which operations persist the snapshot -/

/-- Amended C3: `register_peer`, `cache_files` and `prune` rewrite the
persistent snapshot before returning; `mark_peer_failed`,
`mark_peer_healthy`, `check_rate_limit` and `should_search_again` leave the
snapshot file untouched. -/
theorem persistence_spec (s : PeerState) (now ttl limit mi : Nat)
    (url kind qh : String) (files : List FileMeta) :
    ((register_peer now url s).disk = some (register_peer now url s).snapshotOf)
    ∧ ((cache_files now url files s).disk = some (cache_files now url files s).snapshotOf)
    ∧ ((prune now ttl s).disk = some (prune now ttl s).snapshotOf)
    ∧ ((mark_peer_failed url s).disk = s.disk)
    ∧ ((mark_peer_healthy now url s).disk = s.disk)
    ∧ ((check_rate_limit now url kind limit s).2.disk = s.disk)
    ∧ ((should_search_again now qh mi s).2.disk = s.disk) := by
  refine ⟨rfl, rfl, rfl, rfl, rfl, ?_, ?_⟩
  · simp only [check_rate_limit]
    split <;> split <;> rfl
  · simp only [should_search_again]
    split <;> rfl

/-- C3 counterexample: `mark_peer_failed` mutates the failed set but does
not write the snapshot — on a fresh state the snapshot file stays absent. -/
theorem persistence_counterexample :
    (mark_peer_failed "u" (mkFresh "s")).failed_peers = ["u"]
    ∧ (mark_peer_failed "u" (mkFresh "s")).disk = none := by
  decide

/-- Witness for `persistence_spec` at a concrete input. -/
theorem persistence_spec_witness :
    ((register_peer 3 "u" (mkFresh "s")).disk
        = some (register_peer 3 "u" (mkFresh "s")).snapshotOf)
    ∧ ((cache_files 3 "u" [] (mkFresh "s")).disk
        = some (cache_files 3 "u" [] (mkFresh "s")).snapshotOf)
    ∧ ((prune 3 300 (mkFresh "s")).disk = some (prune 3 300 (mkFresh "s")).snapshotOf)
    ∧ ((mark_peer_failed "u" (mkFresh "s")).disk = (mkFresh "s").disk)
    ∧ ((mark_peer_healthy 3 "u" (mkFresh "s")).disk = (mkFresh "s").disk)
    ∧ ((check_rate_limit 3 "u" "requests" 5 (mkFresh "s")).2.disk = (mkFresh "s").disk)
    ∧ ((should_search_again 3 "q" 10 (mkFresh "s")).2.disk = (mkFresh "s").disk) :=
  persistence_spec (mkFresh "s") 3 300 5 10 "u" "requests" "q" []

/-! ## C4: health-state invariants of the operation sequences -/

/-- Each single operation preserves disjointness of the healthy and failed
sets. -/
theorem disjoint_applyOp (s : PeerState) (op : POp)
    (h : ∀ u, u ∈ s.healthy_peers → u ∉ s.failed_peers) :
    ∀ u, u ∈ (applyOp s op).healthy_peers → u ∉ (applyOp s op).failed_peers := by
  cases op with
  | reg now url =>
    intro u hu
    simp only [applyOp, register_peer, save] at hu ⊢
    rw [mem_setAdd] at hu
    rw [mem_setDiscard]
    rintro ⟨hf, hne⟩
    rcases hu with hu | rfl
    · exact h u hu hf
    · exact hne rfl
  | mh now url =>
    intro u hu
    simp only [applyOp, mark_peer_healthy] at hu ⊢
    rw [mem_setAdd] at hu
    rw [mem_setDiscard]
    rintro ⟨hf, hne⟩
    rcases hu with hu | rfl
    · exact h u hu hf
    · exact hne rfl
  | mf url =>
    intro u hu
    simp only [applyOp, mark_peer_failed] at hu ⊢
    rw [mem_setDiscard] at hu
    rw [mem_setAdd]
    rintro (hf | rfl)
    · exact h u hu.1 hf
    · exact hu.2 rfl
  | pr now ttl =>
    intro u hu
    simp only [applyOp, prune, save] at hu ⊢
    rw [List.mem_filter] at hu
    rw [List.mem_filter]
    rintro ⟨hf, -⟩
    exact h u hu.1 hf

/-- Disjointness of healthy and failed is preserved by any operation
sequence. -/
theorem disjoint_runOps (ops : List POp) :
    ∀ s : PeerState, (∀ u, u ∈ s.healthy_peers → u ∉ s.failed_peers) →
    ∀ u, u ∈ (runOps s ops).healthy_peers → u ∉ (runOps s ops).failed_peers := by
  induction ops with
  | nil => intro s h; exact h
  | cons op ops ih =>
    intro s h
    exact ih (applyOp s op) (disjoint_applyOp s op h)

/-- No operation changes the self url. -/
theorem runOps_self_url (ops : List POp) :
    ∀ s : PeerState, (runOps s ops).self_url = s.self_url := by
  induction ops with
  | nil => intro s; rfl
  | cons op ops ih =>
    intro s
    rw [runOps, List.foldl_cons, ← runOps, ih (applyOp s op)]
    cases op <;> rfl

/-- Amended C4: for every finite sequence of operations from a fresh state,
the healthy and failed sets stay disjoint (so a url is in exactly one of
healthy, failed, absent), and the self url is always reported by
`list_peers` and `list_healthy_peers`.  (The raw sets do not protect self:
see the counterexample.) -/
theorem peer_state_invariant (self : String) (ops : List POp) :
    (∀ u, u ∈ (runOps (mkFresh self) ops).healthy_peers →
        u ∉ (runOps (mkFresh self) ops).failed_peers)
    ∧ self ∈ list_peers (runOps (mkFresh self) ops)
    ∧ self ∈ list_healthy_peers (runOps (mkFresh self) ops) := by
  refine ⟨disjoint_runOps ops (mkFresh self) (by intro u hu; simp [mkFresh] at hu), ?_, ?_⟩
  · have h := self_mem_list_peers (runOps (mkFresh self) ops)
    rwa [runOps_self_url ops (mkFresh self)] at h
  · have h := self_mem_list_healthy_peers (runOps (mkFresh self) ops)
    rwa [runOps_self_url ops (mkFresh self)] at h

/-- C4 counterexample: on a fresh state the self url is absent from the
neighbour table (empty sequence), and `mark_peer_failed(self)` puts the
self url into the failed set. -/
theorem peer_state_counterexample :
    "s" ∉ (runOps (mkFresh "s") []).known_peers.map Prod.fst
    ∧ "s" ∈ (runOps (mkFresh "s") [POp.mf "s"]).failed_peers := by
  decide

/-- Witness for `peer_state_invariant` at a concrete input. -/
theorem peer_state_invariant_witness :
    (∀ u, u ∈ (runOps (mkFresh "s") [POp.reg 1 "a"]).healthy_peers →
        u ∉ (runOps (mkFresh "s") [POp.reg 1 "a"]).failed_peers)
    ∧ "s" ∈ list_peers (runOps (mkFresh "s") [POp.reg 1 "a"])
    ∧ "s" ∈ list_healthy_peers (runOps (mkFresh "s") [POp.reg 1 "a"]) :=
  peer_state_invariant "s" [POp.reg 1 "a"]

/-! ## C2: what the indexer and the `/files` handler return -/

/-- Amended C2: `list_files` returns one `FileMeta` per regular file in
directory-iteration order (no sorting), copying name, size and mtime; the
`/files` handler preserves that order and always sets `checksum` to the
empty string, because the indexer computes no checksum. -/
theorem list_files_spec (ex : Bool) (entries : List DirEntry)
    (self ip : String) (gp : Nat) :
    ((list_files ex entries).map (·.name)
        = if ex then (entries.filter (·.isFile)).map (·.name) else [])
    ∧ list_files false entries = []
    ∧ ((filesEndpoint self ip gp (list_files ex entries)).map (·.checksum)
        = (list_files ex entries).map (fun _ => ""))
    ∧ ((filesEndpoint self ip gp (list_files ex entries)).map (·.name)
        = (list_files ex entries).map (·.name))
    ∧ ((filesEndpoint self ip gp (list_files ex entries)).map (·.rest_url)
        = (list_files ex entries).map (fun f => self ++ "/files/" ++ f.name)) := by
  refine ⟨?_, rfl, ?_, ?_, ?_⟩
  · cases ex <;> simp [list_files, List.map_map]
  · simp only [filesEndpoint, List.map_map]; rfl
  · simp only [filesEndpoint, List.map_map]; rfl
  · simp only [filesEndpoint, List.map_map]; rfl

/-- C2 counterexample: a directory iterated as `b, a` is returned in that
order (not lexicographically sorted), and every checksum is the empty
string rather than 16 hex characters of a SHA-256 digest. -/
theorem list_files_counterexample :
    ((list_files true [⟨"b", true, 1, 0⟩, ⟨"a", true, 2, 0⟩]).map (·.name) = ["b", "a"])
    ∧ ¬ List.Pairwise (fun a b : String => lexLeChars a.data b.data = true)
        ((list_files true [⟨"b", true, 1, 0⟩, ⟨"a", true, 2, 0⟩]).map (·.name))
    ∧ ((filesEndpoint "u" "ip" 7
          (list_files true [⟨"b", true, 1, 0⟩, ⟨"a", true, 2, 0⟩])).map (·.checksum)
        = ["", ""])
    ∧ ("" : String).length ≠ 16 := by
  refine ⟨by decide, by decide, by decide, by decide⟩

/-! ## C9: the download chunk stream -/

/-- Concatenating the read-loop chunks reproduces the content (given enough
fuel). -/
theorem chunksAux_flatten :
    ∀ (fuel : Nat) (l : List Nat), l.length ≤ fuel → (chunksAux fuel l).flatten = l := by
  intro fuel
  induction fuel with
  | zero =>
    intro l h
    have : l = [] := List.eq_nil_of_length_eq_zero (Nat.le_zero.mp h)
    subst this
    simp [chunksAux]
  | succ fuel ih =>
    intro l h
    by_cases hl : l = []
    · subst hl; simp [chunksAux]
    · rw [chunksAux, if_neg hl, List.flatten_cons]
      have hlen : (l.drop CHUNK_SIZE).length ≤ fuel := by
        rw [List.length_drop]
        have : 1 ≤ CHUNK_SIZE := by norm_num [CHUNK_SIZE]
        omega
      rw [ih (l.drop CHUNK_SIZE) hlen, List.take_append_drop]

/-- Every read-loop chunk has at most `CHUNK_SIZE` bytes. -/
theorem chunksAux_length_le :
    ∀ (fuel : Nat) (l c : List Nat), c ∈ chunksAux fuel l → c.length ≤ CHUNK_SIZE := by
  intro fuel
  induction fuel with
  | zero => intro l c hc; simp [chunksAux] at hc
  | succ fuel ih =>
    intro l c hc
    rw [chunksAux] at hc
    by_cases hl : l = []
    · simp [hl] at hc
    · rw [if_neg hl, List.mem_cons] at hc
      rcases hc with rfl | hc
      · rw [List.length_take]
        exact Nat.min_le_left CHUNK_SIZE l.length
      · exact ih _ _ hc

/-- C9: for an existing regular file whose download is not rate-denied, the
stream consists of chunks of at most `CHUNK_SIZE` bytes, with `seq` exactly
`1, 2, …, k`, and concatenating the chunk data reproduces the content
byte-exactly (hence with total length `N`). -/
theorem dummy_download_spec (content : List Nat) (filename peerName : String) :
    dummyDownload true true content filename peerName = some (downloadChunks content)
    ∧ (downloadChunks content).map (·.seq) = List.range' 1 (downloadChunks content).length
    ∧ (downloadChunks content).all (fun c => decide (c.data.length ≤ CHUNK_SIZE)) = true
    ∧ ((downloadChunks content).map (·.data)).flatten = content
    ∧ (((downloadChunks content).map (·.data)).flatten).length = content.length := by
  have hdata : (downloadChunks content).map (fun c => c.data) = fileChunks content := by
    simp only [downloadChunks, List.map_map]
    exact List.enum_map_snd _
  have hflat : ((downloadChunks content).map (fun c => c.data)).flatten = content := by
    rw [hdata]
    exact chunksAux_flatten content.length content (Nat.le_refl _)
  refine ⟨rfl, ?_, ?_, hflat, by rw [hflat]⟩
  · simp only [downloadChunks, List.map_map, List.length_map, List.enum_length]
    have h2 : ((fileChunks content).enum.map
        (fun p : Nat × List Nat => ((fun c : FileChunk => c.seq) ∘
          (fun q : Nat × List Nat => (⟨q.2, q.1 + 1⟩ : FileChunk))) p))
        = ((fileChunks content).enum.map Prod.fst).map (fun i => i + 1) := by
      rw [List.map_map]; rfl
    rw [h2, List.enum_map_fst, List.range'_eq_map_range]
    exact List.map_congr_left (fun i _ => Nat.add_comm i 1)
  · rw [List.all_eq_true]
    intro c hc
    have hcd : c.data ∈ fileChunks content := by
      rw [← hdata]
      exact List.mem_map_of_mem (fun c => c.data) hc
    simp only [decide_eq_true_eq]
    exact chunksAux_length_le content.length content c.data hcd

/-! ## C7 and C8: neighbour selection and search-result shape -/

/-- With duplicate-free table keys, `list_peers` is duplicate-free. -/
theorem list_peers_nodup (s : PeerState)
    (hkn : (s.known_peers.map Prod.fst).Nodup) : (list_peers s).Nodup := by
  unfold list_peers
  by_cases h : s.self_url ∈ s.known_peers.map Prod.fst
  · simpa [h] using hkn
  · simp only [h, if_false]
    exact List.nodup_cons.mpr ⟨h, hkn⟩

/-- Table keys are always contained in `list_peers`. -/
theorem keys_subset_list_peers (s : PeerState) {x : String}
    (hx : x ∈ s.known_peers.map Prod.fst) : x ∈ list_peers s := by
  unfold list_peers
  by_cases h : s.self_url ∈ s.known_peers.map Prod.fst
  · simpa [h] using hx
  · simp only [h, if_false]
    exact List.mem_cons_of_mem _ hx

/-- Membership in the federation candidate list. -/
theorem mem_healthyNonSelf (s : PeerState) {x : String} :
    x ∈ healthyNonSelf s ↔
      x ∈ list_peers s ∧ x ∈ s.healthy_peers ∧ x ≠ s.self_url := by
  unfold healthyNonSelf list_healthy_peers
  simp only [List.mem_filter, Bool.or_eq_true, decide_eq_true_eq]
  constructor
  · rintro ⟨⟨hlp, hh | hself⟩, hne⟩
    · exact ⟨hlp, hh, hne⟩
    · exact absurd hself hne
  · rintro ⟨hlp, hh, hne⟩
    exact ⟨⟨hlp, Or.inl hh⟩, hne⟩

/-- The federation candidate list is duplicate-free when the table keys
are. -/
theorem healthyNonSelf_nodup (s : PeerState)
    (hkn : (s.known_peers.map Prod.fst).Nodup) : (healthyNonSelf s).Nodup :=
  ((list_peers_nodup s hkn).filter _).filter _

/-- Under reachable-state hypotheses (duplicate-free containers, healthy
set inside the table plus self), the candidate list has exactly as many
entries as the healthy set minus self. -/
theorem healthyNonSelf_length (s : PeerState)
    (hkn : (s.known_peers.map Prod.fst).Nodup)
    (hhn : s.healthy_peers.Nodup)
    (hsub : ∀ u ∈ s.healthy_peers, u ∈ s.known_peers.map Prod.fst ∨ u = s.self_url) :
    (healthyNonSelf s).length
      = (s.healthy_peers.filter (fun u => decide (u ≠ s.self_url))).length := by
  apply List.Perm.length_eq
  rw [List.perm_ext_iff_of_nodup (healthyNonSelf_nodup s hkn) (hhn.filter _)]
  intro x
  rw [mem_healthyNonSelf, List.mem_filter]
  simp only [decide_eq_true_eq]
  constructor
  · rintro ⟨-, hh, hne⟩
    exact ⟨hh, hne⟩
  · rintro ⟨hh, hne⟩
    refine ⟨?_, hh, hne⟩
    rcases hsub x hh with hk | rfl
    · exact keys_subset_list_peers s hk
    · exact absurd rfl hne

/-- C7: with `ttl > 0`, the neighbours chosen for federation are exactly
the first `min(fanout, max_fanout, |healthy ∖ self|)` entries of the
healthy candidates in table-insertion order, and the response field
`fanout_used` equals `min(fanout, max_fanout)`. -/
theorem search_fanout_spec (s : PeerState) (query : String)
    (fanout max_fanout ttl : Nat) (localFiles : List FileMeta)
    (cache : String → Option (List FileMeta)) (rpc : String → RpcResult)
    (hkn : (s.known_peers.map Prod.fst).Nodup)
    (hhn : s.healthy_peers.Nodup)
    (hsub : ∀ u ∈ s.healthy_peers, u ∈ s.known_peers.map Prod.fst ∨ u = s.self_url) :
    selectedPeers fanout max_fanout s
      = (healthyNonSelf s).take (min fanout (min max_fanout
          ((s.healthy_peers.filter (fun u => decide (u ≠ s.self_url))).length)))
    ∧ (searchFederated s query fanout max_fanout ttl localFiles cache rpc).fanout_used
        = min fanout max_fanout := by
  constructor
  · rw [selectedPeers, healthyNonSelf_length s hkn hhn hsub]
  · rw [searchFederated]
    split <;> rfl

/-- Witness for `search_fanout_spec` at a concrete input. -/
theorem search_fanout_spec_witness :
    selectedPeers 1 3 twoPeerState
      = (healthyNonSelf twoPeerState).take (min 1 (min 3
          ((twoPeerState.healthy_peers.filter
              (fun u => decide (u ≠ twoPeerState.self_url))).length)))
    ∧ (searchFederated twoPeerState "x" 1 3 1 [] cacheHitB rpcAllOk).fanout_used
        = min 1 3 :=
  search_fanout_spec twoPeerState "x" 1 3 1 [] cacheHitB rpcAllOk
    (by decide) (by decide) (by decide)

/-- The peers of the cache-hit entries are exactly the selected peers with
a truthy (non-empty) cache hit, in selection order. -/
theorem collectPhase_fst_peers (query : String)
    (cache : String → Option (List FileMeta)) (l : List String) :
    (collectPhase query cache l).1.map (·.peer)
      = l.filter (cacheHit cache) := by
  induction l with
  | nil => rfl
  | cons p rest ih =>
    cases hc : cache p with
    | none => simp [collectPhase, hc, ih, cacheHit]
    | some cf =>
      by_cases he : cf.isEmpty
      · simp [collectPhase, hc, he, ih, cacheHit]
      · simp [collectPhase, hc, he, ih, cacheHit]

/-- The queued RPC tasks are exactly the selected peers without a truthy
cache hit (missing entry or empty cached list), in selection order. -/
theorem collectPhase_snd (query : String)
    (cache : String → Option (List FileMeta)) (l : List String) :
    (collectPhase query cache l).2
      = l.filter (fun p => !(cacheHit cache p)) := by
  induction l with
  | nil => rfl
  | cons p rest ih =>
    cases hc : cache p with
    | none => simp [collectPhase, hc, ih, cacheHit]
    | some cf =>
      by_cases he : cf.isEmpty
      · simp [collectPhase, hc, he, ih, cacheHit]
      · simp [collectPhase, hc, he, ih, cacheHit]

/-- When no 200 response spoofs its `base` field, the RPC-phase entries
carry exactly the queried peers that answered 200, in task order. -/
theorem rpcPhase_peers (query : String) (rpc : String → RpcResult)
    (tasks : List String)
    (hrpc : ∀ p b f, rpc p = RpcResult.ok b f → b.getD p = p) :
    (rpcPhase query rpc tasks).map (·.peer)
      = tasks.filter (fun p => (rpc p).isOk) := by
  induction tasks with
  | nil => rfl
  | cons p rest ih =>
    cases hr : rpc p with
    | err =>
      have hstep : rpcPhase query rpc (p :: rest) = rpcPhase query rpc rest := by
        rw [rpcPhase, List.filterMap_cons, rpcPhase]
        simp [hr]
      rw [hstep, ih, List.filter_cons]
      simp [hr, RpcResult.isOk]
    | bad =>
      have hstep : rpcPhase query rpc (p :: rest) = rpcPhase query rpc rest := by
        rw [rpcPhase, List.filterMap_cons, rpcPhase]
        simp [hr]
      rw [hstep, ih, List.filter_cons]
      simp [hr, RpcResult.isOk]
    | ok b f =>
      have hstep : rpcPhase query rpc (p :: rest)
          = ⟨b.getD p, (f.getD []).filter (nameMatches query), false⟩ ::
              rpcPhase query rpc rest := by
        rw [rpcPhase, List.filterMap_cons, rpcPhase]
        simp [hr]
      rw [hstep, List.map_cons, ih, List.filter_cons]
      simp only [hr, RpcResult.isOk, if_pos]
      rw [hrpc p b f hr]

/-- Amended C8: with `ttl > 0`, duplicate-free table keys and no spoofed
`base` fields, the peers of a federated search response are the self url
first, then the neighbours with a truthy (non-empty) cache hit in
selection order, then the 200-responding neighbours in selection order;
the non-self peers are pairwise distinct and never equal to self.  (Cache
hits come before all RPC entries, so the non-self peers are not globally
in selection order: see the counterexample.) -/
theorem search_results_spec (s : PeerState) (query : String)
    (fanout max_fanout ttl : Nat) (localFiles : List FileMeta)
    (cache : String → Option (List FileMeta)) (rpc : String → RpcResult)
    (hkn : (s.known_peers.map Prod.fst).Nodup)
    (hrpc : ∀ p b f, rpc p = RpcResult.ok b f → b.getD p = p)
    (httl : 0 < ttl) :
    ((searchFederated s query fanout max_fanout ttl localFiles cache rpc).results.map (·.peer)
      = s.self_url ::
          ((selectedPeers fanout max_fanout s).filter (cacheHit cache)
            ++ ((selectedPeers fanout max_fanout s).filter
                  (fun p => !(cacheHit cache p))).filter (fun p => (rpc p).isOk)))
    ∧ ((searchFederated s query fanout max_fanout ttl localFiles cache rpc).results.map
        (·.peer)).head? = some s.self_url
    ∧ (((searchFederated s query fanout max_fanout ttl localFiles cache rpc).results.map
        (·.peer)).tail).Nodup
    ∧ s.self_url ∉ ((searchFederated s query fanout max_fanout ttl localFiles cache
        rpc).results.map (·.peer)).tail := by
  have hsel_nodup : (selectedPeers fanout max_fanout s).Nodup :=
    ((List.take_sublist _ _).nodup (healthyNonSelf_nodup s hkn))
  have hsel_ne_self : ∀ x ∈ selectedPeers fanout max_fanout s, x ≠ s.self_url := by
    intro x hx
    have hx2 : x ∈ healthyNonSelf s := (List.take_sublist _ _).subset hx
    exact ((mem_healthyNonSelf s).mp hx2).2.2
  have hmain : (searchFederated s query fanout max_fanout ttl localFiles cache
      rpc).results.map (·.peer)
      = s.self_url ::
          ((selectedPeers fanout max_fanout s).filter (cacheHit cache)
            ++ ((selectedPeers fanout max_fanout s).filter
                  (fun p => !(cacheHit cache p))).filter (fun p => (rpc p).isOk)) := by
    rw [searchFederated]
    rw [if_pos httl]
    simp only [List.map_cons, List.map_append]
    rw [collectPhase_fst_peers, rpcPhase_peers query rpc _ hrpc, collectPhase_snd]
  refine ⟨hmain, by rw [hmain]; rfl, ?_, ?_⟩
  · rw [hmain]
    simp only [List.tail_cons]
    refine List.Nodup.append (hsel_nodup.filter _) ((hsel_nodup.filter _).filter _) ?_
    intro x hxA hxB
    rw [List.mem_filter] at hxA hxB
    have h1 := hxA.2
    have h2 := (List.mem_filter.mp hxB.1).2
    rw [h1] at h2
    exact absurd h2 (by simp)
  · rw [hmain]
    simp only [List.tail_cons, List.mem_append]
    rintro (hx | hx)
    · have := hsel_ne_self _ (List.mem_filter.mp hx).1
      exact this rfl
    · have := hsel_ne_self _ (List.mem_filter.mp (List.mem_filter.mp hx).1).1
      exact this rfl

/-! ## Rate-limit bucket lemmas (C5, C10) -/

/-- Pruning at a later time absorbs an earlier pruning. -/
theorem filter_pruneBucket (t a : Nat) (h : t ≤ a) (b : List Nat) :
    (pruneBucket t b).filter (fun w => decide (a - w < 60))
      = b.filter (fun w => decide (a - w < 60)) := by
  unfold pruneBucket
  rw [List.filter_filter]
  apply List.filter_congr
  intro x _
  by_cases h1 : a - x < 60 <;> by_cases h2 : t - x < 60
  · simp [h1, h2]
  · simp [h1, h2]
    omega
  · simp [h1, h2]
  · simp [h1, h2]

/-- A pointwise-weaker predicate keeps at least as many elements. -/
theorem length_filter_le_of_imp {p q : Nat → Bool} (l : List Nat)
    (h : ∀ x ∈ l, p x = true → q x = true) :
    (l.filter p).length ≤ (l.filter q).length := by
  induction l with
  | nil => simp
  | cons x xs ih =>
    have hx := h x (List.mem_cons_self x xs)
    have ihx := ih (fun y hy => h y (List.mem_cons_of_mem _ hy))
    rw [List.filter_cons, List.filter_cons]
    by_cases hp : p x = true
    · rw [if_pos hp, if_pos (hx hp)]
      simpa using ihx
    · rw [if_neg hp]
      by_cases hq : q x = true
      · rw [if_pos hq]
        exact Nat.le_trans ihx (Nat.le_succ _)
      · rw [if_neg hq]
        exact ihx

@[simp]
theorem allowTimes_nil : allowTimes [] = [] := rfl

@[simp]
theorem allowTimes_cons_true (t : Nat) (l : List (Nat × Bool)) :
    allowTimes ((t, true) :: l) = t :: allowTimes l := by
  simp [allowTimes]

@[simp]
theorem allowTimes_cons_false (t : Nat) (l : List (Nat × Bool)) :
    allowTimes ((t, false) :: l) = allowTimes l := by
  simp [allowTimes]

/-- If every element of a list has fewer than `n` earlier elements within
`w` seconds before it, then any window of length `w` holds at most `n`
elements. -/
theorem window_of_lookback (w n : Nat) :
    ∀ A : List Nat,
      (∀ (P S : List Nat) (a : Nat), A = P ++ a :: S →
        (P.filter (fun x => decide (a - x < w))).length < n) →
      ∀ T, countWindow w T A ≤ n := by
  intro A
  induction A using List.reverseRecOn with
  | nil => intro _ T; simp [countWindow]
  | append_singleton A' a ih =>
    intro h T
    have hA' : ∀ (P S : List Nat) (x : Nat), A' = P ++ x :: S →
        (P.filter (fun y => decide (x - y < w))).length < n := by
      intro P S x hPS
      exact h P (S ++ [a]) x (by rw [hPS]; simp)
    have hcw : countWindow w T (A' ++ [a])
        = countWindow w T A' + countWindow w T [a] := by
      simp [countWindow, List.filter_append]
    rw [hcw]
    by_cases ha : (decide (T ≤ a) && decide (a < T + w)) = true
    · have h1 : countWindow w T [a] = 1 := by
        simp only [countWindow, List.filter_cons, ha, if_pos]
        rfl
      have hle : countWindow w T A'
          ≤ (A'.filter (fun x => decide (a - x < w))).length := by
        apply length_filter_le_of_imp
        intro x _ hx
        simp only [Bool.and_eq_true, decide_eq_true_eq] at hx ha ⊢
        omega
      have hlt := h A' [] a rfl
      omega
    · have h1 : countWindow w T [a] = 0 := by
        simp only [countWindow, List.filter_cons, ha, if_neg]
        rfl
      have hle := ih hA' T
      omega

/-- Every allowed time in a rate trace is one of the call times. -/
theorem mem_allowTimes_runRate (limit : Nat) :
    ∀ (ts b : List Nat) (a : Nat),
      a ∈ allowTimes (runRate limit b ts).1 → a ∈ ts := by
  intro ts
  induction ts with
  | nil => intro b a h; simp [runRate] at h
  | cons t ts ih =>
    intro b a h
    simp only [runRate, rateStep] at h
    by_cases hd : limit ≤ (pruneBucket t b).length
    · rw [if_pos hd] at h
      simp only [allowTimes_cons_false] at h
      exact List.mem_cons_of_mem _ (ih _ a h)
    · rw [if_neg hd] at h
      simp only [allowTimes_cons_true] at h
      rcases List.mem_cons.mp h with rfl | h2
      · exact List.mem_cons_self _ _
      · exact List.mem_cons_of_mem _ (ih _ a h2)

/-- Lookback bound for the rate limiter: when an `ALLOW` is granted at
time `a`, fewer than `limit` of the earlier allowed times (plus whatever
the initial bucket held) are within the previous 60 seconds. -/
theorem rate_lookback (limit : Nat) :
    ∀ ts : List Nat, List.Pairwise (· ≤ ·) ts →
    ∀ (b P S : List Nat) (a : Nat),
      allowTimes (runRate limit b ts).1 = P ++ a :: S →
      ((b ++ P).filter (fun w => decide (a - w < 60))).length < limit := by
  intro ts
  induction ts with
  | nil =>
    intro _ b P S a h
    simp only [runRate, allowTimes_nil] at h
    have hlen := congrArg List.length h
    simp only [List.length_nil, List.length_append, List.length_cons] at hlen
    omega
  | cons t ts ih =>
    intro hp b P S a h
    have hts := List.Pairwise.of_cons hp
    have hle : ∀ x ∈ ts, t ≤ x := (List.pairwise_cons.mp hp).1
    simp only [runRate, rateStep] at h
    by_cases hd : limit ≤ (pruneBucket t b).length
    · rw [if_pos hd] at h
      simp only [allowTimes_cons_false] at h
      have ha : a ∈ ts :=
        mem_allowTimes_runRate limit ts _ a (by rw [h]; simp)
      have hta : t ≤ a := hle a ha
      have ihh := ih hts (pruneBucket t b) P S a h
      have heq : ((b ++ P).filter (fun w => decide (a - w < 60)))
          = ((pruneBucket t b ++ P).filter (fun w => decide (a - w < 60))) := by
        rw [List.filter_append, List.filter_append, filter_pruneBucket t a hta b]
      rw [heq]
      exact ihh
    · rw [if_neg hd] at h
      simp only [allowTimes_cons_true] at h
      cases P with
      | nil =>
        rw [List.nil_append] at h
        injection h with h1 h2
        subst h1
        simpa [pruneBucket] using Nat.lt_of_not_le hd
      | cons p P' =>
        rw [List.cons_append] at h
        injection h with h1 h2
        subst h1
        have ha : a ∈ ts :=
          mem_allowTimes_runRate limit ts _ a (by rw [h2]; simp)
        have hta : t ≤ a := hle a ha
        have ihh := ih hts (pruneBucket t b ++ [t]) P' S a h2
        rw [List.append_assoc] at ihh
        have hbt : b ++ t :: P' = b ++ ([t] ++ P') := rfl
        have heq : ((pruneBucket t b ++ ([t] ++ P')).filter
              (fun w => decide (a - w < 60)))
            = ((b ++ ([t] ++ P')).filter (fun w => decide (a - w < 60))) := by
          simp only [List.filter_append]
          rw [filter_pruneBucket t a hta b]
        rw [hbt, ← heq]
        exact ihh

/-- At most `limit` ALLOW decisions per 60-second window, for any
nondecreasing sequence of call times starting from an empty bucket. -/
theorem rate_window (limit : Nat) (ts : List Nat)
    (hp : List.Pairwise (· ≤ ·) ts) (T : Nat) :
    countWindow 60 T (allowTimes (runRate limit [] ts).1) ≤ limit := by
  apply window_of_lookback
  intro P S a h
  have hl := rate_lookback limit ts hp [] P S a h
  simpa using hl

/-- `check_rate_limit` refines the bucket-level step `rateStep` for the
addressed client and kind. -/
theorem check_rate_limit_sim (now : Nat) (url kind : String) (limit : Nat)
    (s : PeerState) :
    (check_rate_limit now url kind limit s).1
        = (rateStep limit (bucketOf kind url s) now).1
    ∧ bucketOf kind url (check_rate_limit now url kind limit s).2
        = (rateStep limit (bucketOf kind url s) now).2 := by
  simp only [check_rate_limit, rateStep]
  by_cases hd : limit ≤ (pruneBucket now (bucketOf kind url s)).length
  · rw [if_pos hd, if_pos hd]
    refine ⟨rfl, ?_⟩
    by_cases hk : kind = "requests"
    · rw [if_pos hk]
      simp [bucketOf, hk]
    · rw [if_neg hk]
      simp [bucketOf, hk]
  · rw [if_neg hd, if_neg hd]
    refine ⟨rfl, ?_⟩
    by_cases hk : kind = "requests"
    · rw [if_pos hk]
      simp [bucketOf, hk]
    · rw [if_neg hk]
      simp [bucketOf, hk]

/-- A sequence of `check_rate_limit` calls produces the same decision log
as the bucket-level trace on the bucket of the addressed client. -/
theorem runChecks_log (url kind : String) (limit : Nat) :
    ∀ (ts : List Nat) (s : PeerState),
      (runChecks url kind limit s ts).1
        = (runRate limit (bucketOf kind url s) ts).1 := by
  intro ts
  induction ts with
  | nil => intro s; rfl
  | cons t ts ih =>
    intro s
    have hsim := check_rate_limit_sim t url kind limit s
    simp only [runChecks, runRate]
    rw [hsim.1, ih ((check_rate_limit t url kind limit s).2), hsim.2]

/-- C5: `check_rate_limit` prunes the bucket to the last 60 seconds,
denies exactly when the remaining count has reached the limit, appends the
current time exactly on ALLOW — and consequently, for any client and kind,
a nondecreasing sequence of calls starting from an empty bucket is allowed
at most `limit` times in any 60-second window. -/
theorem check_rate_limit_spec (s : PeerState) (url kind : String)
    (limit now : Nat) (ts : List Nat)
    (hsorted : List.Pairwise (· ≤ ·) ts)
    (hfresh : bucketOf kind url s = []) :
    ((check_rate_limit now url kind limit s).1 = false ↔
        limit ≤ (pruneBucket now (bucketOf kind url s)).length)
    ∧ bucketOf kind url (check_rate_limit now url kind limit s).2 =
        (if limit ≤ (pruneBucket now (bucketOf kind url s)).length
         then pruneBucket now (bucketOf kind url s)
         else pruneBucket now (bucketOf kind url s) ++ [now])
    ∧ ∀ T, countWindow 60 T (allowTimes (runChecks url kind limit s ts).1) ≤ limit := by
  refine ⟨?_, ?_, ?_⟩
  · rw [(check_rate_limit_sim now url kind limit s).1, rateStep]
    by_cases hd : limit ≤ (pruneBucket now (bucketOf kind url s)).length <;>
      simp [hd]
  · rw [(check_rate_limit_sim now url kind limit s).2, rateStep]
    by_cases hd : limit ≤ (pruneBucket now (bucketOf kind url s)).length <;>
      simp [hd]
  · intro T
    rw [runChecks_log url kind limit ts s, hfresh]
    exact rate_window limit ts hsorted T

/-- Witness for `check_rate_limit_spec` at a concrete input. -/
theorem check_rate_limit_spec_witness :
    List.Pairwise (· ≤ ·) [0, 30, 70]
    ∧ bucketOf "requests" "c" (mkFresh "me") = []
    ∧ (((check_rate_limit 5 "c" "requests" 1 (mkFresh "me")).1 = false ↔
          1 ≤ (pruneBucket 5 (bucketOf "requests" "c" (mkFresh "me"))).length)
        ∧ bucketOf "requests" "c" (check_rate_limit 5 "c" "requests" 1 (mkFresh "me")).2 =
            (if 1 ≤ (pruneBucket 5 (bucketOf "requests" "c" (mkFresh "me"))).length
             then pruneBucket 5 (bucketOf "requests" "c" (mkFresh "me"))
             else pruneBucket 5 (bucketOf "requests" "c" (mkFresh "me")) ++ [5])
        ∧ ∀ T, countWindow 60 T
            (allowTimes (runChecks "c" "requests" 1 (mkFresh "me") [0, 30, 70]).1) ≤ 1) :=
  ⟨by decide, rfl,
    check_rate_limit_spec (mkFresh "me") "c" "requests" 1 5 [0, 30, 70] (by decide) rfl⟩

/-- Amended C10: a denied call stores back exactly the pruned bucket (no
timestamp is appended), and — provided the limit is at least 1 — a client
whose surviving timestamps are all at least 60 seconds old is allowed. -/
theorem check_rate_limit_deny_spec (s : PeerState) (url kind : String)
    (limit now : Nat) :
    ((check_rate_limit now url kind limit s).1 = false →
      bucketOf kind url (check_rate_limit now url kind limit s).2
        = pruneBucket now (bucketOf kind url s))
    ∧ (1 ≤ limit → (∀ t ∈ bucketOf kind url s, t + 60 ≤ now) →
        (check_rate_limit now url kind limit s).1 = true) := by
  constructor
  · intro hdeny
    rw [(check_rate_limit_sim now url kind limit s).1, rateStep] at hdeny
    rw [(check_rate_limit_sim now url kind limit s).2, rateStep]
    by_cases hd : limit ≤ (pruneBucket now (bucketOf kind url s)).length
    · rw [if_pos hd]
    · rw [if_neg hd] at hdeny
      exact absurd hdeny (by simp)
  · intro hlim hold
    rw [(check_rate_limit_sim now url kind limit s).1, rateStep]
    have hempty : pruneBucket now (bucketOf kind url s) = [] := by
      unfold pruneBucket
      rw [List.filter_eq_nil_iff]
      intro t ht
      have := hold t ht
      simp only [decide_eq_true_eq, Decidable.not_not]
      omega
    rw [hempty]
    rw [if_neg (by simp; omega)]

/-- C10 counterexample: with a per-minute limit of 0, a client whose bucket
is empty (silent forever) is still denied — staying silent for 60 seconds
does not always make the client allowed again. -/
theorem rate_limit_zero_counterexample :
    bucketOf "requests" "c" (mkFresh "me") = []
    ∧ (check_rate_limit 100 "c" "requests" 0 (mkFresh "me")).1 = false := by
  decide

/-- Witness for `check_rate_limit_deny_spec` at a concrete input. -/
theorem check_rate_limit_deny_spec_witness :
    ((check_rate_limit 100 "c" "requests" 0 (mkFresh "me")).1 = false →
      bucketOf "requests" "c" (check_rate_limit 100 "c" "requests" 0 (mkFresh "me")).2
        = pruneBucket 100 (bucketOf "requests" "c" (mkFresh "me")))
    ∧ (1 ≤ 0 → (∀ t ∈ bucketOf "requests" "c" (mkFresh "me"), t + 60 ≤ 100) →
        (check_rate_limit 100 "c" "requests" 0 (mkFresh "me")).1 = true) :=
  check_rate_limit_deny_spec (mkFresh "me") "c" "requests" 0 100

/-! ## Query-ledger lemmas (C6) -/

/-- `should_search_again` refines the value-level step `searchStep` for the
addressed query hash. -/
theorem should_search_again_sim (now : Nat) (qh : String) (mi : Nat)
    (s : PeerState) :
    (should_search_again now qh mi s).1
        = (searchStep mi ((dictGet qh s.search_history).getD 0) now).1
    ∧ (dictGet qh (should_search_again now qh mi s).2.search_history).getD 0
        = (searchStep mi ((dictGet qh s.search_history).getD 0) now).2 := by
  simp only [should_search_again, searchStep]
  by_cases hc : now - (dictGet qh s.search_history).getD 0 < mi
  · rw [if_pos hc, if_pos hc]
    exact ⟨rfl, rfl⟩
  · rw [if_neg hc, if_neg hc]
    exact ⟨rfl, by simp⟩

/-- A sequence of `should_search_again` calls produces the same decision
log as the value-level trace on the recorded time of the hash. -/
theorem runGateState_log (qh : String) (mi : Nat) :
    ∀ (ts : List Nat) (s : PeerState),
      (runGateState qh mi s ts).1
        = (runSearchGate mi ((dictGet qh s.search_history).getD 0) ts).1 := by
  intro ts
  induction ts with
  | nil => intro s; rfl
  | cons t ts ih =>
    intro s
    have hsim := should_search_again_sim t qh mi s
    simp only [runGateState, runSearchGate]
    rw [hsim.1, ih ((should_search_again t qh mi s).2), hsim.2]

/-- Every `true` the gate returns is at least `min_interval` after the
ledger value it started from. -/
theorem gate_true_ge (mi : Nat) :
    ∀ (ts : List Nat) (last a : Nat),
      a ∈ allowTimes (runSearchGate mi last ts).1 → mi ≤ a - last := by
  intro ts
  induction ts with
  | nil => intro last a h; simp [runSearchGate] at h
  | cons t ts ih =>
    intro last a h
    simp only [runSearchGate, searchStep] at h
    by_cases hc : t - last < mi
    · rw [if_pos hc] at h
      simp only [allowTimes_cons_false] at h
      exact ih last a h
    · rw [if_neg hc] at h
      simp only [allowTimes_cons_true] at h
      rcases List.mem_cons.mp h with rfl | h2
      · omega
      · have := ih t a h2
        omega

/-- Lookback bound for the gate: when `true` is returned at time `a`, no
earlier `true` lies within the previous `min_interval` seconds. -/
theorem gate_lookback (mi : Nat) :
    ∀ (ts : List Nat) (last : Nat) (P S : List Nat) (a : Nat),
      allowTimes (runSearchGate mi last ts).1 = P ++ a :: S →
      (P.filter (fun x => decide (a - x < mi))).length < 1 := by
  intro ts
  induction ts with
  | nil =>
    intro last P S a h
    simp only [runSearchGate, allowTimes_nil] at h
    cases P <;> simp_all
  | cons t ts ih =>
    intro last P S a h
    simp only [runSearchGate, searchStep] at h
    by_cases hc : t - last < mi
    · rw [if_pos hc] at h
      simp only [allowTimes_cons_false] at h
      exact ih last P S a h
    · rw [if_neg hc] at h
      simp only [allowTimes_cons_true] at h
      cases P with
      | nil => simp
      | cons p P' =>
        rw [List.cons_append] at h
        injection h with h1 h2
        subst h1
        have ha : a ∈ allowTimes (runSearchGate mi t ts).1 := by
          rw [h2]; simp
        have hge : mi ≤ a - t := gate_true_ge mi ts t a ha
        have htail := ih t P' S a h2
        rw [List.filter_cons, if_neg (by simp; omega)]
        exact htail

/-- C6: the gate returns `false` and leaves the ledger (indeed the whole
state) unchanged when less than `min_interval` elapsed since the recorded
time; otherwise it records `now` and returns `true` — and for any call
sequence it returns `true` at most once per `min_interval`-second window
per query hash. -/
theorem should_search_again_spec (s : PeerState) (qh : String) (mi now : Nat)
    (ts : List Nat) :
    (should_search_again now qh mi s
      = if now - (dictGet qh s.search_history).getD 0 < mi then (false, s)
        else (true, { s with search_history := dictSet qh now s.search_history }))
    ∧ ∀ T, countWindow mi T (allowTimes (runGateState qh mi s ts).1) ≤ 1 := by
  constructor
  · rfl
  · intro T
    rw [runGateState_log qh mi ts s]
    apply window_of_lookback
    intro P S a h
    exact gate_lookback mi ts _ P S a h

/-- Witness for `should_search_again_spec` at a concrete input. -/
theorem should_search_again_spec_witness :
    (should_search_again 12 "q" 10 (mkFresh "s")
      = if 12 - (dictGet "q" (mkFresh "s").search_history).getD 0 < 10
        then (false, mkFresh "s")
        else (true, { mkFresh "s" with
                        search_history := dictSet "q" 12 (mkFresh "s").search_history }))
    ∧ ∀ T, countWindow 10 T
        (allowTimes (runGateState "q" 10 (mkFresh "s") [12, 15, 25]).1) ≤ 1 :=
  should_search_again_spec (mkFresh "s") "q" 10 12 [12, 15, 25]

/-- C8 counterexample: with neighbours selected in order `a, b`, a truthy
(non-empty) cache hit for `b` only, and both answering, the response lists
`b` before `a` — the non-self peers are not in the order the selection
step chose them. -/
theorem search_results_counterexample :
    ((searchFederated twoPeerState "" 2 3 1 [] cacheHitB rpcAllOk).results.map (·.peer)
        = ["s", "b", "a"])
    ∧ selectedPeers 2 3 twoPeerState = ["a", "b"]
    ∧ cacheHitB "b" = some [⟨"beta.txt", 3, 2⟩]
    ∧ (["s", "b", "a"] : List String) ≠ ["s", "a", "b"] := by
  decide

/-- Witness for `search_results_spec` at a concrete input. -/
theorem search_results_spec_witness :
    ((searchFederated twoPeerState "" 2 3 1 [] cacheHitB rpcAllOk).results.map (·.peer)
      = twoPeerState.self_url ::
          ((selectedPeers 2 3 twoPeerState).filter (cacheHit cacheHitB)
            ++ ((selectedPeers 2 3 twoPeerState).filter
                  (fun p => !(cacheHit cacheHitB p))).filter
                (fun p => (rpcAllOk p).isOk)))
    ∧ ((searchFederated twoPeerState "" 2 3 1 [] cacheHitB rpcAllOk).results.map
        (·.peer)).head? = some twoPeerState.self_url
    ∧ (((searchFederated twoPeerState "" 2 3 1 [] cacheHitB rpcAllOk).results.map
        (·.peer)).tail).Nodup
    ∧ twoPeerState.self_url ∉ ((searchFederated twoPeerState "" 2 3 1 [] cacheHitB
        rpcAllOk).results.map (·.peer)).tail :=
  search_results_spec twoPeerState "" 2 3 1 [] cacheHitB rpcAllOk (by decide)
    (by intro p b f h; injection h with h1 h2; rw [← h1]; rfl) (by decide)

end P2P
